import Mathlib

/-!
Verification of `jquery.parsequery.js` (rapportive-oss/jquery-parsequery).

The parser `$.parseQuery` (lines 174-206 of the source) is embedded
shallowly: JavaScript strings become Lean `String`/`List Char`, the
query-string tokenizer and the per-token loop become structurally
recursive functions, `decodeURIComponent` becomes an explicit CESU-8
percent-decoder returning `Except`, and thrown `URIError`s become
`Except.error` values.  The separator is modelled as a single character;
the repository's default is the one-character string `"&"`.
-/

namespace ParseQuery

/-- Value of a hexadecimal digit, as accepted inside a `%XX` escape. -/
def hexVal (c : Char) : Option Nat :=
  if '0' ≤ c ∧ c ≤ '9' then some (c.toNat - '0'.toNat)
  else if 'a' ≤ c ∧ c ≤ 'f' then some (c.toNat - 'a'.toNat + 10)
  else if 'A' ≤ c ∧ c ≤ 'F' then some (c.toNat - 'A'.toNat + 10)
  else none

/-- First pass of `decodeURIComponent`: each `%XX` escape becomes the byte
`XX` (`Sum.inr`), every other character passes through (`Sum.inl`).
A `%` not followed by two hex digits is malformed. -/
def percentTokens : List Char → Option (List (Char ⊕ Nat))
  | [] => some []
  | '%' :: h :: l :: rest =>
    match hexVal h, hexVal l with
    | some hv, some lv => (percentTokens rest).map (fun ts => Sum.inr (16 * hv + lv) :: ts)
    | _, _ => none
  | '%' :: _ => none
  | c :: rest => (percentTokens rest).map (fun ts => Sum.inl c :: ts)

/-- Value of a UTF-8 continuation byte (`0x80`-`0xBF`). -/
def contVal (b : Nat) : Option Nat :=
  if 0x80 ≤ b ∧ b < 0xC0 then some (b - 0x80) else none

/-- Second pass of `decodeURIComponent`: the percent-escaped bytes must form
valid CESU-8 (UTF-8 in which a supplementary code point may instead be
written as an encoded surrogate pair, the form the source documents at
lines 34-36).  Lean `Char` cannot hold a lone surrogate, so an unpaired
encoded surrogate is rejected here; no claim exercises that corner. -/
def cesu8Decode : List (Char ⊕ Nat) → Option (List Char)
  | [] => some []
  | Sum.inl c :: rest => (cesu8Decode rest).map (fun cs => c :: cs)
  | Sum.inr b :: rest =>
    if b < 0x80 then (cesu8Decode rest).map (fun cs => Char.ofNat b :: cs)
    else if b < 0xC2 then none
    else if b < 0xE0 then
      match rest with
      | Sum.inr b2 :: rest2 =>
        match contVal b2 with
        | some v2 =>
          (cesu8Decode rest2).map (fun cs => Char.ofNat ((b - 0xC0) * 64 + v2) :: cs)
        | none => none
      | _ => none
    else if b < 0xF0 then
      match rest with
      | Sum.inr b2 :: Sum.inr b3 :: rest2 =>
        match contVal b2, contVal b3 with
        | some v2, some v3 =>
          let cp := (b - 0xE0) * 4096 + v2 * 64 + v3
          if cp < 0x800 then none
          else if 0xD800 ≤ cp ∧ cp ≤ 0xDBFF then
            match rest2 with
            | Sum.inr b4 :: Sum.inr b5 :: Sum.inr b6 :: rest3 =>
              if b4 = 0xED then
                match contVal b5, contVal b6 with
                | some v5, some v6 =>
                  let lo := 0xD000 + v5 * 64 + v6
                  if 0xDC00 ≤ lo ∧ lo ≤ 0xDFFF then
                    (cesu8Decode rest3).map
                      (fun cs => Char.ofNat (0x10000 + (cp - 0xD800) * 1024 + (lo - 0xDC00)) :: cs)
                  else none
                | _, _ => none
              else none
            | _ => none
          else if 0xDC00 ≤ cp ∧ cp ≤ 0xDFFF then none
          else (cesu8Decode rest2).map (fun cs => Char.ofNat cp :: cs)
        | _, _ => none
      | _ => none
    else if b < 0xF5 then
      match rest with
      | Sum.inr b2 :: Sum.inr b3 :: Sum.inr b4 :: rest2 =>
        match contVal b2, contVal b3, contVal b4 with
        | some v2, some v3, some v4 =>
          let cp := (b - 0xF0) * 262144 + v2 * 4096 + v3 * 64 + v4
          if cp < 0x10000 ∨ 0x10FFFF < cp then none
          else (cesu8Decode rest2).map (fun cs => Char.ofNat cp :: cs)
        | _, _, _ => none
      | _ => none
    else none

/-- JavaScript's `decodeURIComponent`; a malformed escape or invalid CESU-8
byte sequence throws `URIError: URI malformed` (source lines 34-39). -/
def decodeURIComponent (s : String) : Except String String :=
  match percentTokens s.data >>= cesu8Decode with
  | some cs => .ok (String.mk cs)
  | none => .error "URIError: URI malformed"

/-- JavaScript `"str".replace('+', ' ')`: a string pattern replaces only the
first occurrence. -/
def replaceFirstPlus : List Char → List Char
  | [] => []
  | '+' :: rest => ' ' :: rest
  | c :: rest => c :: replaceFirstPlus rest

/-- `$.parseQuery.default_decode` (source lines 199-201):
`decodeURIComponent((string || "").replace('+', ' '))`; `null` (and the
empty string) are falsy, so they are replaced by `""` before decoding. -/
def default_decode (string : Option String) : Except String String :=
  decodeURIComponent (String.mk (replaceFirstPlus (string.getD "").data))

/-- JavaScript `String.prototype.split` with a single-character separator:
`"".split(sep) = [""]`, separators at either end produce empty fields. -/
def jsSplit (sep : Char) : List Char → List (List Char)
  | [] => [[]]
  | c :: rest =>
    if c = sep then [] :: jsSplit sep rest
    else
      match jsSplit sep rest with
      | g :: gs => (c :: g) :: gs
      | [] => [[c]]

/-- JavaScript `pair.join('=')` (`[].join` of the empty array is `""`). -/
def joinEq : List (List Char) → List Char
  | [] => []
  | [g] => g
  | g :: gs => g ++ '=' :: joinEq gs

/-- A decoded value in the output object: a plain string for scalar keys,
an array of strings for keys matched by `array_keys`. -/
inductive Value where
  | str : String → Value
  | arr : List String → Value
deriving DecidableEq

/-- The per-call configuration object built by
`$.extend(config, $.parseQuery, options)` (source line 182), restricted to
the fields the parsing loop reads.  Decoded values are modelled as strings
and `.toString()` on a decoded key is the identity.  Field defaults are
the load-time globals of lines 199-205. -/
structure Config where
  query : String
  separator : Char := '&'
  decode : Option String → Option String → Except String String := fun s _ => default_decode s
  array_keys : String → Bool := fun _ => false

/-- `params[key]` lookup in the output object. -/
def getKey : List (String × Value) → String → Option Value
  | [], _ => none
  | (k', v') :: rest, k => if k' = k then some v' else getKey rest k

/-- `params[key] = v`: overwrite in place, or append a fresh binding. -/
def setKey : List (String × Value) → String → Value → List (String × Value)
  | [], k, v => [(k, v)]
  | (k', v') :: rest, k, v =>
    if k' = k then (k, v) :: rest else (k', v') :: setKey rest k v

/-- JavaScript truthiness of an array value: every array object, even the
empty one, is truthy. -/
def jsArrayTruthy {α : Type} (_ : List α) : Bool := true

/-- The raw key of a token: `pair.shift()` after `param.split('=')`. -/
def rawKeyOf (param : List Char) : List Char := (jsSplit '=' param).headD []

/-- The raw value of a token: `pair.join('=')` on what `shift()` left. -/
def rawValueOf (param : List Char) : List Char := joinEq (jsSplit '=' param).tail

/-- The first argument of the value-decoding call, source line 188:
`pair ? pair.join('=') : null`.  `pair` (the array left after `shift()`)
is truthy even when empty, so the `null` branch is dead code and the
input is always the joined remainder. -/
def jsValueInput (param : List Char) : Option String :=
  if jsArrayTruthy (jsSplit '=' param).tail then some (String.mk (rawValueOf param)) else none

/-- `config.decode(pair.shift(), null)` of source line 187. -/
def tokenKey (config : Config) (param : List Char) : Except String String :=
  config.decode (some (String.mk (rawKeyOf param))) none

/-- `config.decode(pair ? pair.join('=') : null, key)` of source line 188,
with the key decode it depends on. -/
def tokenValue (config : Config) (param : List Char) : Except String String :=
  match tokenKey config param with
  | .error e => .error e
  | .ok key => config.decode (jsValueInput param) (some key)

/-- The body of the `$.each` loop, source lines 185-196, acting on the
accumulated `params` object. -/
def processToken (config : Config) (params : List (String × Value)) (param : List Char) :
    Except String (List (String × Value)) :=
  match tokenKey config param with
  | .error e => .error e
  | .ok key =>
    match config.decode (jsValueInput param) (some key) with
    | .error e => .error e
    | .ok value =>
      if config.array_keys key then
        match getKey params key with
        | some (Value.arr l) => .ok (setKey params key (Value.arr (l ++ [value])))
        | some (Value.str s) =>
          -- `params[key] = params[key] || []`: an existing empty string is
          -- falsy and is replaced by a fresh array; a non-empty string
          -- would survive and `.push` on it would throw a TypeError.
          if s = "" then .ok (setKey params key (Value.arr [value]))
          else .error "TypeError: params[key].push is not a function"
        | none => .ok (setKey params key (Value.arr [value]))
      else .ok (setKey params key (Value.str value))

/-- Left-to-right iteration of `$.each` over the token list. -/
def parseTokens (config : Config) : List (List Char) → List (String × Value) →
    Except String (List (String × Value))
  | [], params => .ok params
  | t :: rest, params =>
    match processToken config params t with
    | .error e => .error e
    | .ok params' => parseTokens config rest params'

/-- `config.query.replace(/^\?/, '')`: strip one leading question mark. -/
def stripQuestion : List Char → List Char
  | '?' :: rest => rest
  | l => l

/-- The token list `config.query.split(config.separator)` of line 185. -/
def tokensOf (config : Config) : List (List Char) :=
  jsSplit config.separator (stripQuestion config.query.data)

/-- `$.parseQuery` (source lines 174-198): tokenize, decode each token and
merge it into the output object; a decode error aborts the whole call. -/
def parseQuery (config : Config) : Except String (List (String × Value)) :=
  parseTokens config (tokensOf config) []

/-! ### The mutable surface of a call

`$.parseQuery` reads two objects it does not own: the process-wide default
configuration stored on `$.parseQuery` itself (lines 199-205) and the
caller's `options` argument.  Line 182 merges both into the fresh per-call
`config` literal of line 176 — `$.extend`'s target is `config`, never
`options` or `$.parseQuery` — and line 183 reassigns only `config.query`.
The call is modelled as a function on this state that returns the state
alongside the result. -/

/-- The fields stored on `$.parseQuery` at load time (source lines
199-205), mutable process-wide defaults. -/
structure GlobalDefaults where
  separator : Char
  decode : Option String → Option String → Except String String
  default_decode : Option String → Except String String
  array_keys : String → Bool

/-- The load-time values of the global defaults. -/
def initialDefaults : GlobalDefaults :=
  { separator := '&'
    decode := fun s _ => default_decode s
    default_decode := default_decode
    array_keys := fun _ => false }

/-- A caller-supplied options object; absent fields are `none`
(`$.extend` ignores keys a source object does not define). -/
structure Options where
  query : Option String := none
  separator : Option Char := none
  decode : Option (Option String → Option String → Except String String) := none
  array_keys : Option (String → Bool) := none

/-- `$.extend(config, $.parseQuery, options)` over the fresh literal
`{query: window.location.search || ""}`: a later source wins, so an
explicit option beats the global default, which beats the ambient query. -/
def extendConfig (ambientQuery : String) (g : GlobalDefaults) (o : Options) : Config :=
  { query := o.query.getD ambientQuery
    separator := o.separator.getD g.separator
    decode := o.decode.getD g.decode
    array_keys := o.array_keys.getD g.array_keys }

/-- State and result of one `$.parseQuery(options)` call. -/
structure CallResult where
  globals : GlobalDefaults
  options : Options
  result : Except String (List (String × Value))

/-- One `$.parseQuery(options)` call at the state level: every write in the
source targets the per-call `config` and `params` objects, so the globals
and the options come back exactly as they went in. -/
def parseQueryCall (ambientQuery : String) (g : GlobalDefaults) (o : Options) : CallResult :=
  { globals := g
    options := o
    result := parseQuery (extendConfig ambientQuery g o) }

/-! ### Specification-side functions the theorems compare against -/

/-- A decode function that tells an absent raw value (`null`) apart from a
present-but-empty one, as the spec says downstream decoders may. -/
def probeDecode : Option String → Option String → Except String String
  | none, _ => .ok "NULL"
  | some s, none => .ok s
  | some s, some _ => if s = "" then .ok "EMPTY" else .ok s

/-- Both decode calls of a token succeed. -/
def tokenDecodes (config : Config) (param : List Char) : Prop :=
  (∃ k, tokenKey config param = .ok k) ∧ ∃ v, tokenValue config param = .ok v

/-- Decoded values of the tokens whose decoded key is `k`, in input order. -/
def occurrenceValues (config : Config) (k : String) (ts : List (List Char)) : List String :=
  ts.filterMap fun t =>
    match tokenKey config t, tokenValue config t with
    | .ok k', .ok v => if k' = k then some v else none
    | _, _ => none

/-- Appending the values of an array key to the binding already present:
no new values leave the binding alone; otherwise the values extend the
existing array (an absent binding counts as the empty array). -/
def arrAppend : Option Value → List String → Option Value
  | old, [] => old
  | some (Value.arr l), v :: vs => some (Value.arr (l ++ v :: vs))
  | _, v :: vs => some (Value.arr (v :: vs))

/-- Last-occurrence-wins for a scalar key: the last of the new values if
there is one, otherwise the binding already present. -/
def lastWins (old : Option Value) (vs : List String) : Option Value :=
  match vs.getLast? with
  | some v => some (Value.str v)
  | none => old

/-- Every binding respects the `array_keys` verdict on its key: an array
for a matched key, a plain string otherwise. -/
def WellFormed (config : Config) (params : List (String × Value)) : Prop :=
  ∀ p ∈ params,
    if config.array_keys p.1 then (∃ l, p.2 = Value.arr l) else (∃ s, p.2 = Value.str s)

/-- The multi-valued-parameter example of source lines 50-51:
`array_keys: /\[\]$/`. -/
def arrayExampleConfig : Config :=
  { query := "a[]=b&a[]=c&d=e&d=f", array_keys := fun k => List.isSuffixOf ['[', ']'] k.data }

/-- `$.parseQuery("a")` with a decode that can see the difference between
`null` and `""`. -/
def probeConfigValueless : Config := { query := "a", decode := probeDecode }

/-- `$.parseQuery("a=")` with the same probing decode. -/
def probeConfigEmpty : Config := { query := "a=", decode := probeDecode }

end ParseQuery
namespace ParseQuery

theorem getKey_setKey_self (params : List (String × Value)) (k : String) (v : Value) :
    getKey (setKey params k v) k = some v := by
  induction params with
  | nil => simp [setKey, getKey]
  | cons p rest ih =>
    obtain ⟨k', v'⟩ := p
    by_cases h : k' = k
    · simp [setKey, getKey, h]
    · simp [setKey, getKey, h, ih]

theorem getKey_setKey_ne (params : List (String × Value)) (key k : String) (v : Value)
    (h : key ≠ k) : getKey (setKey params key v) k = getKey params k := by
  induction params with
  | nil => simp [setKey, getKey, h]
  | cons p rest ih =>
    obtain ⟨k', v'⟩ := p
    by_cases h' : k' = key
    · simp [setKey, getKey, h', h]
    · by_cases h'' : k' = k
      · simp [setKey, getKey, h', h'', Ne.symm h]
      · simp [setKey, getKey, h', h'', ih]

theorem mem_setKey {params : List (String × Value)} {p : String × Value} {k : String}
    {v : Value} (h : p ∈ setKey params k v) : p = (k, v) ∨ p ∈ params := by
  induction params with
  | nil => simp [setKey] at h; simp [h]
  | cons q rest ih =>
    obtain ⟨k', v'⟩ := q
    by_cases h' : k' = k
    · simp [setKey, h'] at h
      rcases h with h | h
      · exact Or.inl (by simp [h])
      · exact Or.inr (by simp [h])
    · simp [setKey, h'] at h
      rcases h with h | h
      · exact Or.inr (by simp [h])
      · rcases ih h with h1 | h1
        · exact Or.inl h1
        · exact Or.inr (by simp [h1])

theorem getKey_mem {params : List (String × Value)} {k : String} {v : Value}
    (h : getKey params k = some v) : (k, v) ∈ params := by
  induction params with
  | nil => simp [getKey] at h
  | cons q rest ih =>
    obtain ⟨k', v'⟩ := q
    by_cases h' : k' = k
    · subst h'
      simp [getKey] at h
      simp [h]
    · simp [getKey, h'] at h
      exact List.mem_cons_of_mem _ (ih h)

theorem wellFormed_setKey {config : Config} {params : List (String × Value)} {k : String}
    {v : Value} (hw : WellFormed config params)
    (hv : if config.array_keys k then (∃ l, v = Value.arr l) else (∃ s, v = Value.str s)) :
    WellFormed config (setKey params k v) := by
  intro p hp
  rcases mem_setKey hp with h | h
  · subst h; exact hv
  · exact hw p h

theorem wellFormed_arr {config : Config} {params : List (String × Value)} {k : String}
    {v : Value} (hw : WellFormed config params) (hak : config.array_keys k = true)
    (hg : getKey params k = some v) : ∃ l, v = Value.arr l := by
  have := hw (k, v) (getKey_mem hg)
  simpa [hak] using this

end ParseQuery
namespace ParseQuery

theorem jsSplit_ne_nil (sep : Char) (l : List Char) : jsSplit sep l ≠ [] := by
  cases l with
  | nil => simp [jsSplit]
  | cons c rest =>
    by_cases h : c = sep
    · simp [jsSplit, h]
    · simp only [jsSplit, h, if_false]
      cases hs : jsSplit sep rest <;> simp

theorem joinEq_jsSplit (l : List Char) : joinEq (jsSplit '=' l) = l := by
  induction l with
  | nil => simp [jsSplit, joinEq]
  | cons c rest ih =>
    by_cases h : c = '='
    · subst h
      obtain ⟨g, gs, hgs⟩ : ∃ g gs, jsSplit '=' rest = g :: gs := by
        cases hs : jsSplit '=' rest with
        | nil => exact absurd hs (jsSplit_ne_nil _ _)
        | cons g gs => exact ⟨g, gs, rfl⟩
      simp only [jsSplit, if_pos rfl, hgs, joinEq]
      rw [← hgs, ih]
      simp
    · obtain ⟨g, gs, hgs⟩ : ∃ g gs, jsSplit '=' rest = g :: gs := by
        cases hs : jsSplit '=' rest with
        | nil => exact absurd hs (jsSplit_ne_nil _ _)
        | cons g gs => exact ⟨g, gs, rfl⟩
      simp only [jsSplit, h, if_false, hgs]
      cases gs with
      | nil =>
        simp only [joinEq]
        rw [hgs] at ih
        simp [joinEq] at ih
        simp [ih]
      | cons g2 t =>
        simp only [joinEq]
        rw [hgs] at ih
        simp only [joinEq] at ih
        simp [ih]

theorem jsSplit_no_sep_append (a b : List Char) (h : '=' ∉ a) :
    jsSplit '=' (a ++ '=' :: b) = a :: jsSplit '=' b := by
  induction a with
  | nil => simp [jsSplit]
  | cons c a' ih =>
    have hc : c ≠ '=' := fun hc => h (by simp [hc])
    have h' : '=' ∉ a' := fun hm => h (List.mem_cons_of_mem _ hm)
    simp only [List.cons_append, jsSplit, hc, if_false, List.append_eq, ih h']

theorem rawKeyOf_split (a b : List Char) (h : '=' ∉ a) :
    rawKeyOf (a ++ '=' :: b) = a := by
  simp [rawKeyOf, jsSplit_no_sep_append a b h]

theorem rawValueOf_split (a b : List Char) (h : '=' ∉ a) :
    rawValueOf (a ++ '=' :: b) = b := by
  simp [rawValueOf, jsSplit_no_sep_append a b h, joinEq_jsSplit]

end ParseQuery
namespace ParseQuery

theorem tokenValue_ok (config : Config) (t : List Char) (key v : String)
    (hk : tokenKey config t = .ok key)
    (hv : config.decode (jsValueInput t) (some key) = .ok v) :
    tokenValue config t = .ok v := by
  simp [tokenValue, hk, hv]

theorem processToken_error_of_tokenValue (config : Config) (params : List (String × Value))
    (t : List Char) (e : String) (h : tokenValue config t = .error e) :
    processToken config params t = .error e := by
  cases hk : tokenKey config t with
  | error e' =>
    simp [tokenValue, hk] at h
    simp [processToken, hk, h]
  | ok key =>
    simp [tokenValue, hk] at h
    simp [processToken, hk, h]

theorem processToken_ok_decodes (config : Config) (params params' : List (String × Value))
    (t : List Char) (h : processToken config params t = .ok params') :
    tokenDecodes config t := by
  cases hk : tokenKey config t with
  | error e => simp [processToken, hk] at h
  | ok key =>
    cases hv : config.decode (jsValueInput t) (some key) with
    | error e => simp [processToken, hk, hv] at h
    | ok v => exact ⟨⟨key, hk⟩, v, tokenValue_ok config t key v hk hv⟩

theorem parseTokens_ok_decodes (config : Config) (ts : List (List Char)) :
    ∀ (params m : List (String × Value)), parseTokens config ts params = .ok m →
      ∀ t ∈ ts, tokenDecodes config t := by
  induction ts with
  | nil => intro params m h t ht; simp at ht
  | cons t rest ih =>
    intro params m h t' ht'
    cases hp : processToken config params t with
    | error e => simp [parseTokens, hp] at h
    | ok params' =>
      simp only [parseTokens, hp] at h
      rcases List.mem_cons.mp ht' with h1 | h1
      · subst h1; exact processToken_ok_decodes config params params' t' hp
      · exact ih params' m h t' h1

theorem parseTokens_error_head (config : Config) (params : List (String × Value))
    (ts : List (List Char)) (t : List Char) (e : String)
    (h : tokenValue config t = .error e) :
    parseTokens config (t :: ts) params = .error e := by
  simp [parseTokens, processToken_error_of_tokenValue config params t e h]

theorem processToken_wf (config : Config) (params params' : List (String × Value))
    (t : List Char) (hw : WellFormed config params)
    (h : processToken config params t = .ok params') : WellFormed config params' := by
  cases hk : tokenKey config t with
  | error e => simp [processToken, hk] at h
  | ok key =>
    cases hv : config.decode (jsValueInput t) (some key) with
    | error e => simp [processToken, hk, hv] at h
    | ok v =>
      cases hak : config.array_keys key with
      | false =>
        simp [processToken, hk, hv, hak] at h
        subst h
        exact wellFormed_setKey hw (by simp [hak])
      | true =>
        cases hg : getKey params key with
        | none =>
          simp [processToken, hk, hv, hak, hg] at h
          subst h
          exact wellFormed_setKey hw (by simp [hak])
        | some old =>
          cases old with
          | arr l =>
            simp [processToken, hk, hv, hak, hg] at h
            subst h
            exact wellFormed_setKey hw (by simp [hak])
          | str s =>
            obtain ⟨l, hl⟩ := wellFormed_arr hw hak hg
            simp at hl

theorem parseTokens_wf (config : Config) (ts : List (List Char)) :
    ∀ (params m : List (String × Value)), WellFormed config params →
      parseTokens config ts params = .ok m → WellFormed config m := by
  induction ts with
  | nil => intro params m hw h; simp [parseTokens] at h; subst h; exact hw
  | cons t rest ih =>
    intro params m hw h
    cases hp : processToken config params t with
    | error e => simp [parseTokens, hp] at h
    | ok params' =>
      simp only [parseTokens, hp] at h
      exact ih params' m (processToken_wf config params params' t hw hp) h

theorem occurrenceValues_nil (config : Config) (k : String) :
    occurrenceValues config k [] = [] := by
  simp [occurrenceValues]

theorem occurrenceValues_cons_ok (config : Config) (k : String) (t : List Char)
    (ts : List (List Char)) (key v : String) (hk : tokenKey config t = .ok key)
    (hv : tokenValue config t = .ok v) :
    occurrenceValues config k (t :: ts) =
      if key = k then v :: occurrenceValues config k ts
      else occurrenceValues config k ts := by
  by_cases h : key = k <;> simp [occurrenceValues, List.filterMap_cons, hk, hv, h]

theorem arrAppend_snoc (l : List String) (v : String) (vs : List String) :
    arrAppend (some (Value.arr (l ++ [v]))) vs = arrAppend (some (Value.arr l)) (v :: vs) := by
  cases vs <;> simp [arrAppend]

theorem arrAppend_single (v : String) (vs : List String) :
    arrAppend (some (Value.arr [v])) vs = arrAppend none (v :: vs) := by
  cases vs <;> simp [arrAppend]

theorem lastWins_cons (old : Option Value) (v : String) (vs : List String) :
    lastWins old (v :: vs) = lastWins (some (Value.str v)) vs := by
  cases vs with
  | nil => simp [lastWins]
  | cons v' vs' =>
    cases hgl : (v' :: vs').getLast? with
    | none => simp at hgl
    | some x => simp [lastWins, List.getLast?_cons_cons, hgl]

end ParseQuery
namespace ParseQuery

theorem parseTokens_arr (config : Config) (k : String) (hak : config.array_keys k = true)
    (ts : List (List Char)) :
    ∀ (params m : List (String × Value)), WellFormed config params →
      parseTokens config ts params = .ok m →
      getKey m k = arrAppend (getKey params k) (occurrenceValues config k ts) := by
  induction ts with
  | nil =>
    intro params m hw h
    simp [parseTokens] at h
    subst h
    simp [occurrenceValues_nil, arrAppend]
  | cons t rest ih =>
    intro params m hw h
    cases hp : processToken config params t with
    | error e => simp [parseTokens, hp] at h
    | ok params' =>
      simp only [parseTokens, hp] at h
      cases hk : tokenKey config t with
      | error e => simp [processToken, hk] at hp
      | ok key =>
        cases hv : config.decode (jsValueInput t) (some key) with
        | error e => simp [processToken, hk, hv] at hp
        | ok v =>
          have htv : tokenValue config t = .ok v := tokenValue_ok config t key v hk hv
          rw [occurrenceValues_cons_ok config k t rest key v hk htv]
          have hw' : WellFormed config params' :=
            processToken_wf config params params' t hw hp
          have ihm := ih params' m hw' h
          cases hak' : config.array_keys key with
          | false =>
            have hne : key ≠ k := by
              intro he; subst he; rw [hak] at hak'; cases hak'
            simp only [processToken, hk, hv, hak'] at hp
            simp only [Bool.false_eq_true, if_false, Except.ok.injEq] at hp
            subst hp
            rw [if_neg hne, ihm, getKey_setKey_ne params key k (Value.str v) hne]
          | true =>
            cases hg : getKey params key with
            | none =>
              simp only [processToken, hk, hv, hak', hg, if_true] at hp
              simp only [Except.ok.injEq] at hp
              subst hp
              by_cases he : key = k
              · subst he
                rw [if_pos rfl, ihm, getKey_setKey_self params key (Value.arr [v]), hg,
                  arrAppend_single]
              · rw [if_neg he, ihm, getKey_setKey_ne params key k (Value.arr [v]) he]
            | some old =>
              cases old with
              | str s =>
                obtain ⟨l, hl⟩ := wellFormed_arr hw hak' hg
                simp at hl
              | arr l =>
                simp only [processToken, hk, hv, hak', hg, if_true] at hp
                simp only [Except.ok.injEq] at hp
                subst hp
                by_cases he : key = k
                · subst he
                  rw [if_pos rfl, ihm, getKey_setKey_self params key (Value.arr (l ++ [v])), hg,
                    arrAppend_snoc]
                · rw [if_neg he, ihm, getKey_setKey_ne params key k (Value.arr (l ++ [v])) he]

theorem parseTokens_scalar (config : Config) (k : String) (hak : config.array_keys k = false)
    (ts : List (List Char)) :
    ∀ (params m : List (String × Value)), WellFormed config params →
      parseTokens config ts params = .ok m →
      getKey m k = lastWins (getKey params k) (occurrenceValues config k ts) := by
  induction ts with
  | nil =>
    intro params m hw h
    simp [parseTokens] at h
    subst h
    simp [occurrenceValues_nil, lastWins]
  | cons t rest ih =>
    intro params m hw h
    cases hp : processToken config params t with
    | error e => simp [parseTokens, hp] at h
    | ok params' =>
      simp only [parseTokens, hp] at h
      cases hk : tokenKey config t with
      | error e => simp [processToken, hk] at hp
      | ok key =>
        cases hv : config.decode (jsValueInput t) (some key) with
        | error e => simp [processToken, hk, hv] at hp
        | ok v =>
          have htv : tokenValue config t = .ok v := tokenValue_ok config t key v hk hv
          rw [occurrenceValues_cons_ok config k t rest key v hk htv]
          have hw' : WellFormed config params' :=
            processToken_wf config params params' t hw hp
          have ihm := ih params' m hw' h
          cases hak' : config.array_keys key with
          | false =>
            simp only [processToken, hk, hv, hak'] at hp
            simp only [Bool.false_eq_true, if_false, Except.ok.injEq] at hp
            subst hp
            by_cases he : key = k
            · subst he
              rw [if_pos rfl, ihm, getKey_setKey_self params key (Value.str v), lastWins_cons]
            · rw [if_neg he, ihm, getKey_setKey_ne params key k (Value.str v) he]
          | true =>
            have hne : key ≠ k := by
              intro he; subst he; rw [hak] at hak'; cases hak'
            rw [if_neg hne]
            cases hg : getKey params key with
            | none =>
              simp only [processToken, hk, hv, hak', hg, if_true] at hp
              simp only [Except.ok.injEq] at hp
              subst hp
              rw [ihm, getKey_setKey_ne params key k (Value.arr [v]) hne]
            | some old =>
              cases old with
              | str s =>
                obtain ⟨l, hl⟩ := wellFormed_arr hw hak' hg
                simp at hl
              | arr l =>
                simp only [processToken, hk, hv, hak', hg, if_true] at hp
                simp only [Except.ok.injEq] at hp
                subst hp
                rw [ihm, getKey_setKey_ne params key k (Value.arr (l ++ [v])) hne]

end ParseQuery
namespace ParseQuery

/-- Claim C1 (code bug): the spec and the source's own doc comment (lines
85-89) say a token without `=` hands `null` to decode, but line 188 tests
the shifted `pair` array, which is truthy even when empty, so decode
receives the empty string and `a` is indistinguishable from `a=`. -/
theorem valueless_token_decodes_empty_string :
    jsValueInput ('a' :: []) = some "" ∧
    parseQuery probeConfigValueless = .ok [("a", Value.str "EMPTY")] ∧
    parseQuery probeConfigEmpty = .ok [("a", Value.str "EMPTY")] :=
  ⟨rfl, rfl, rfl⟩

/-- Claim C2: a decode error aborts the whole parse with that error and no
partial mapping: `parse("a=%")` raises `URIError`, a successful parse means
every token decoded cleanly, and a token whose decode errors makes the
remaining loop return exactly that error. -/
theorem parse_fails_fast_on_decode_error :
    parseQuery { query := "a=%" } = .error "URIError: URI malformed" ∧
    (∀ (config : Config) (m : List (String × Value)), parseQuery config = .ok m →
      ∀ t ∈ tokensOf config, tokenDecodes config t) ∧
    (∀ (config : Config) (params : List (String × Value)) (ts : List (List Char))
      (t : List Char) (e : String), tokenValue config t = .error e →
      parseTokens config (t :: ts) params = .error e) := by
  refine ⟨rfl, ?_, ?_⟩
  · intro config m h t ht
    exact parseTokens_ok_decodes config (tokensOf config) [] m h t ht
  · intro config params ts t e h
    exact parseTokens_error_head config params ts t e h

/-- Witness for C2 at concrete inputs: the token of `parse("a=b")` decodes,
and a loop whose head token is `%` returns the `URIError`. -/
theorem parse_fails_fast_on_decode_error_witness :
    tokenDecodes { query := "a=b" } ('a' :: '=' :: 'b' :: []) ∧
    parseTokens { query := "x" } (('%' :: []) :: []) [] = .error "URIError: URI malformed" := by
  constructor
  · exact parse_fails_fast_on_decode_error.2.1 { query := "a=b" } [("a", Value.str "b")] rfl
      ('a' :: '=' :: 'b' :: []) (by decide)
  · exact parse_fails_fast_on_decode_error.2.2 { query := "x" } [] [] ('%' :: [])
      "URIError: URI malformed" rfl

/-- Claim C3: the default decode maps an absent input to `""`, replaces only
the first literal `+` with a space, then percent-decodes, so
`parse("a+b=c%2Bd&%C3%A6=ae")` gives `a b ↦ c+d` and `æ ↦ ae`. -/
theorem default_decode_null_plus_percent :
    default_decode none = .ok "" ∧
    default_decode (some "a+b+c") = .ok "a b+c" ∧
    parseQuery { query := "a+b=c%2Bd&%C3%A6=ae" } =
      .ok [("a b", Value.str "c+d"), ("æ", Value.str "ae")] :=
  ⟨rfl, rfl, rfl⟩

/-- Claim C4: only the first `=` of a token separates key from value - the
raw key is everything before it and the raw value everything after it,
further `=` included - and `parse("a=b=c&%3D=%26")` gives `a ↦ b=c`,
`= ↦ &`. -/
theorem first_equals_splits_token :
    (∀ a b : List Char, '=' ∉ a →
      rawKeyOf (a ++ '=' :: b) = a ∧ rawValueOf (a ++ '=' :: b) = b) ∧
    parseQuery { query := "a=b=c&%3D=%26" } =
      .ok [("a", Value.str "b=c"), ("=", Value.str "&")] :=
  ⟨fun a b h => ⟨rawKeyOf_split a b h, rawValueOf_split a b h⟩, rfl⟩

/-- Witness for C4 on the token `a=b=c`. -/
theorem first_equals_splits_token_witness :
    rawKeyOf ('a' :: '=' :: 'b' :: '=' :: 'c' :: []) = 'a' :: [] ∧
    rawValueOf ('a' :: '=' :: 'b' :: '=' :: 'c' :: []) = 'b' :: '=' :: 'c' :: [] :=
  first_equals_splits_token.1 ('a' :: []) ('b' :: '=' :: 'c' :: []) (by decide)

/-- Claim C5: a key matched by `array_keys` maps to the sequence of its
decoded values in left-to-right input order, one per occurrence, as in
`parse({query:"a[]=b&a[]=c&d=e&d=f", array_keys:/\[\]$/})`. -/
theorem array_key_values_in_order :
    (∀ (config : Config) (m : List (String × Value)) (k : String),
      parseQuery config = .ok m → config.array_keys k = true →
      getKey m k = arrAppend none (occurrenceValues config k (tokensOf config))) ∧
    parseQuery arrayExampleConfig =
      .ok [("a[]", Value.arr ["b", "c"]), ("d", Value.str "f")] := by
  refine ⟨?_, rfl⟩
  intro config m k h hak
  have hbase := parseTokens_arr config k hak (tokensOf config) [] m
    (by intro p hp; simp at hp) h
  simpa [getKey] using hbase

/-- Witness for C5 at the spec's own example. -/
theorem array_key_values_in_order_witness :
    getKey [("a[]", Value.arr ["b", "c"]), ("d", Value.str "f")] "a[]" =
      arrAppend none (occurrenceValues arrayExampleConfig "a[]" (tokensOf arrayExampleConfig)) :=
  array_key_values_in_order.1 arrayExampleConfig
    [("a[]", Value.arr ["b", "c"]), ("d", Value.str "f")] "a[]" rfl rfl

/-- Claim C6: a key not matched by `array_keys` maps to the decoded value of
its last occurrence - tokens are processed left to right and each
occurrence overwrites the previous one - so `parse("a=b&a=c")` gives
`a ↦ c`. -/
theorem scalar_key_last_wins :
    (∀ (config : Config) (m : List (String × Value)) (k : String),
      parseQuery config = .ok m → config.array_keys k = false →
      getKey m k = lastWins none (occurrenceValues config k (tokensOf config))) ∧
    parseQuery { query := "a=b&a=c" } = .ok [("a", Value.str "c")] := by
  refine ⟨?_, rfl⟩
  intro config m k h hak
  have hbase := parseTokens_scalar config k hak (tokensOf config) [] m
    (by intro p hp; simp at hp) h
  simpa [getKey] using hbase

/-- Witness for C6 at `parse("a=b&a=c")`. -/
theorem scalar_key_last_wins_witness :
    getKey [("a", Value.str "c")] "a" =
      lastWins none (occurrenceValues { query := "a=b&a=c" } "a"
        (tokensOf { query := "a=b&a=c" })) :=
  scalar_key_last_wins.1 { query := "a=b&a=c" } [("a", Value.str "c")] "a" rfl rfl

/-- Claim C7: within one parse every output binding respects the pure
`array_keys` verdict on its key - an array when it matches, a plain string
when it does not - so no key switches representation. -/
theorem key_representation_consistent :
    ∀ (config : Config) (m : List (String × Value)), parseQuery config = .ok m →
      WellFormed config m := by
  intro config m h
  exact parseTokens_wf config (tokensOf config) [] m (by intro p hp; simp at hp) h

/-- Witness for C7 at the multi-valued example. -/
theorem key_representation_consistent_witness :
    WellFormed arrayExampleConfig [("a[]", Value.arr ["b", "c"]), ("d", Value.str "f")] :=
  key_representation_consistent arrayExampleConfig
    [("a[]", Value.arr ["b", "c"]), ("d", Value.str "f")] rfl

/-- Claim C8: under the default configuration `parse("")` returns the
mapping `"" ↦ ""`: the empty query yields exactly one token, the empty
string, whose key decodes to `""` and whose value decodes to `""`. -/
theorem parse_empty_query :
    tokensOf { query := "" } = [[]] ∧
    parseQuery { query := "" } = .ok [("", Value.str "")] :=
  ⟨rfl, rfl⟩

/-- Claim C9: parse is a pure function of the query and the configuration:
two configurations equal field by field (decode and `array_keys` equal
pointwise) parse to equal results. -/
theorem parse_deterministic :
    ∀ c1 c2 : Config, c1.query = c2.query → c1.separator = c2.separator →
      (∀ i ctx, c1.decode i ctx = c2.decode i ctx) →
      (∀ k, c1.array_keys k = c2.array_keys k) →
      parseQuery c1 = parseQuery c2 := by
  intro c1 c2 hq hs hd ha
  obtain ⟨q1, s1, d1, a1⟩ := c1
  obtain ⟨q2, s2, d2, a2⟩ := c2
  have hq' : q1 = q2 := hq
  have hs' : s1 = s2 := hs
  have hd' : d1 = d2 := funext fun i => funext fun ctx => hd i ctx
  have ha' : a1 = a2 := funext ha
  subst hq'; subst hs'; subst hd'; subst ha'
  rfl

/-- Witness for C9: the default configuration compared with itself. -/
theorem parse_deterministic_witness :
    parseQuery { query := "a=b" } = parseQuery { query := "a=b" } :=
  parse_deterministic { query := "a=b" } { query := "a=b" } rfl rfl
    (fun _ _ => rfl) (fun _ => rfl)

/-- Claim C10: a call mutates neither the caller's options object nor the
process-wide defaults: merging happens into a fresh per-call config, so
the state-level call returns globals and options unchanged. -/
theorem parse_preserves_globals_and_options :
    ∀ (ambientQuery : String) (g : GlobalDefaults) (o : Options),
      (parseQueryCall ambientQuery g o).globals = g ∧
      (parseQueryCall ambientQuery g o).options = o :=
  fun _ _ _ => ⟨rfl, rfl⟩

end ParseQuery
